import Mathlib

/-!
Verification of the human-detection-system core: a shallow embedding of the
Registry (database.py, class PersonDatabase over SQLite) and of the Matcher
(face_utils.py, class FaceRecognitionSystem over the face_recognition
library), together with theorems settling the behavioural claims of the
specification.

Modelling conventions:
* timestamps (ISO strings produced by datetime.now().isoformat(), compared
  lexicographically by SQLite, hence chronologically) are modelled as `Int`;
  each operation that reads the wall clock takes the current time `now` as an
  explicit argument;
* face encodings (Python lists of floats, stored as JSON text) are modelled
  as `List ℚ`; the JSON serialization is modelled by the lossless encoding
  `encodeEnc` into numerator/denominator pairs, decoded by `decodeEnc`;
* metadata dicts are modelled as association lists `List (String × String)`;
* SQLite errors surface as the `DBErr` error kind (`sqlite3.IntegrityError`
  on the UNIQUE(name) constraint, re-raised by add_person as ValueError).
-/

namespace HDS

/-! ### Registry data model (database.py, init_database) -/

abbrev Meta := List (String × String)

/-- JSON serialization of a face encoding (json.dumps of a list of numbers),
modelled losslessly: each rational is stored as its numerator/denominator. -/
def encodeEnc (e : List ℚ) : List (Int × Nat) :=
  e.map fun q => (q.num, q.den)

/-- JSON deserialization of a stored face encoding (json.loads). -/
def decodeEnc (s : List (Int × Nat)) : List ℚ :=
  s.map fun p => (p.1 : ℚ) / (p.2 : ℚ)

/-- A row of the `persons` table. -/
structure PersonRow where
  id : Nat
  name : String
  face_encoding : List (Int × Nat)
  registration_date : Int
  last_seen : Option Int
  total_detections : Nat
  metadata : Meta
deriving DecidableEq, Repr, Inhabited

/-- A row of the `detection_logs` table. -/
structure DetectionLog where
  id : Nat
  person_id : Nat
  detection_time : Int
  confidence : Option ℚ
deriving DecidableEq, Repr, Inhabited

/-- The persistent store: the two tables plus the AUTOINCREMENT counters. -/
structure DB where
  persons : List PersonRow
  logs : List DetectionLog
  nextPersonId : Nat
  nextLogId : Nat
deriving DecidableEq, Repr, Inhabited

/-- A person as returned to callers: `face_encoding` and `metadata` are
deserialized from their stored text form (get_all_persons, get_person_by_id,
search_persons all perform this json.loads step). -/
structure PersonOut where
  id : Nat
  name : String
  face_encoding : List ℚ
  registration_date : Int
  last_seen : Option Int
  total_detections : Nat
  metadata : Meta
deriving DecidableEq, Repr, Inhabited

/-- Deserialize a stored row into the dict shape the Registry returns. -/
def viewPerson (p : PersonRow) : PersonOut :=
  { id := p.id
    name := p.name
    face_encoding := decodeEnc p.face_encoding
    registration_date := p.registration_date
    last_seen := p.last_seen
    total_detections := p.total_detections
    metadata := p.metadata }

/-- Error kinds raised by the Registry. -/
inductive DBErr where
  | duplicateName (name : String)
deriving DecidableEq, Repr

/-! ### Registry operations -/

/-- PersonDatabase.add_person: INSERT INTO persons, with UNIQUE(name)
turning a duplicate name into an IntegrityError, re-raised as ValueError.
On error the insert has no effect, so the database is returned unchanged. -/
def add_person (db : DB) (now : Int) (name : String) (face_encoding : List ℚ)
    (metadata : Option Meta) : Except DBErr Nat × DB :=
  if db.persons.any fun p => p.name == name then
    (Except.error (DBErr.duplicateName name), db)
  else
    (Except.ok db.nextPersonId,
     { db with
        persons := db.persons ++
          [{ id := db.nextPersonId
             name := name
             face_encoding := encodeEnc face_encoding
             registration_date := now
             last_seen := none
             total_detections := 0
             metadata := metadata.getD [] }]
        nextPersonId := db.nextPersonId + 1 })

/-- The effective name update of PersonDatabase.update_person: the source
guards with a truthiness test, so both None and the empty string leave the
name column out of the UPDATE. -/
def effName (name : Option String) : Option String :=
  name.bind fun n => if n = "" then none else some n

/-- Apply the generated SET clause of update_person to one row. -/
def applyUpd (nameUpd : Option String) (metaUpd : Option Meta) (p : PersonRow) :
    PersonRow :=
  { p with name := nameUpd.getD p.name, metadata := metaUpd.getD p.metadata }

/-- PersonDatabase.update_person: builds a SET clause from the supplied
fields and runs UPDATE persons ... WHERE id = ?; runs no statement when the
clause is empty.  The UNIQUE(name) constraint raises when the addressed row
exists and the new name collides with a different row. -/
def update_person (db : DB) (person_id : Nat) (name : Option String)
    (metadata : Option Meta) : Except DBErr DB :=
  if (effName name).isNone && metadata.isNone then Except.ok db
  else
    match effName name with
    | some n =>
        if (db.persons.any fun p => p.id == person_id) &&
           (db.persons.any fun q => q.id != person_id && q.name == n) then
          Except.error (DBErr.duplicateName n)
        else
          Except.ok { db with
            persons := db.persons.map fun p =>
              if p.id = person_id then applyUpd (effName name) metadata p else p }
    | none =>
        Except.ok { db with
          persons := db.persons.map fun p =>
            if p.id = person_id then applyUpd (effName name) metadata p else p }

/-- PersonDatabase.delete_person: DELETE FROM persons WHERE id = ? followed
by DELETE FROM detection_logs WHERE person_id = ?. -/
def delete_person (db : DB) (person_id : Nat) : DB :=
  { db with
      persons := db.persons.filter fun p => p.id != person_id
      logs := db.logs.filter fun l => l.person_id != person_id }

/-- The ORDER BY last_seen DESC, name ASC relation of get_all_persons.
SQLite sorts NULL before every value, so DESC puts NULL rows last; the
TEXT timestamps compare chronologically. -/
def personOrder (a b : PersonRow) : Prop :=
  match a.last_seen, b.last_seen with
  | some x, some y => y < x ∨ (x = y ∧ a.name ≤ b.name)
  | some _, none => True
  | none, some _ => False
  | none, none => a.name ≤ b.name

instance personOrder.decRel : DecidableRel personOrder := fun a b =>
  show Decidable (match a.last_seen, b.last_seen with
      | some x, some y => y < x ∨ (x = y ∧ a.name ≤ b.name)
      | some _, none => True
      | none, some _ => False
      | none, none => a.name ≤ b.name) from
  match a.last_seen, b.last_seen with
  | some x, some y => inferInstanceAs (Decidable (y < x ∨ (x = y ∧ a.name ≤ b.name)))
  | some _, none => inferInstanceAs (Decidable True)
  | none, some _ => inferInstanceAs (Decidable False)
  | none, none => inferInstanceAs (Decidable (a.name ≤ b.name))

/-- PersonDatabase.get_all_persons: SELECT * FROM persons ORDER BY
last_seen DESC, name ASC, deserializing each row. -/
def get_all_persons (db : DB) : List PersonOut :=
  (List.insertionSort personOrder db.persons).map viewPerson

/-- PersonDatabase.get_person_by_id: SELECT * FROM persons WHERE id = ?,
deserializing the row when present. -/
def get_person_by_id (db : DB) (person_id : Nat) : Option PersonOut :=
  (db.persons.find? fun p => p.id == person_id).map viewPerson

/-- PersonDatabase.log_detection: inserts one detection_logs row with
detection_time = now and, in the same committed connection, sets the
last_seen of the person to now and increments total_detections. -/
def log_detection (db : DB) (now : Int) (person_id : Nat)
    (confidence : Option ℚ) : DB :=
  { db with
      logs := db.logs ++
        [{ id := db.nextLogId
           person_id := person_id
           detection_time := now
           confidence := confidence }]
      nextLogId := db.nextLogId + 1
      persons := db.persons.map fun p =>
        if p.id = person_id then
          { p with last_seen := some now,
                   total_detections := p.total_detections + 1 }
        else p }

/-- The result shape of get_detection_stats. -/
structure Stats where
  total_detections : Nat
  unique_persons : Nat
  top_visitors : List (String × Nat)
deriving DecidableEq, Repr

/-- The ORDER BY count DESC relation of the top-visitors query. -/
def countOrder (a b : String × Nat) : Prop := b.2 ≤ a.2

instance countOrder.decRel : DecidableRel countOrder := fun a b =>
  inferInstanceAs (Decidable (b.2 ≤ a.2))

/-- PersonDatabase.get_detection_stats: aggregates detection_logs rows with
detection_time > now - days; the top-visitors query joins persons (dropping
dangling person_ids), groups by person id, orders by count descending and
keeps at most 5 rows. -/
def get_detection_stats (db : DB) (now : Int) (days : Int) : Stats :=
  let cutoff := now - days
  let recent := db.logs.filter fun l => cutoff < l.detection_time
  { total_detections := recent.length
    unique_persons := (recent.map fun l => l.person_id).dedup.length
    top_visitors :=
      (List.insertionSort countOrder
        (db.persons.filterMap fun p =>
          let c := (recent.filter fun l => l.person_id == p.id).length
          if c = 0 then none else some (p.name, c))).take 5 }

/-- Does the character list `q` occur at the head of `n`? -/
def beginsWith : List Char → List Char → Bool
  | [], _ => true
  | _ :: _, [] => false
  | a :: as, b :: bs => a == b && beginsWith as bs

/-- Does the character list `q` occur contiguously anywhere inside `n`?
Plain substring occurrence — the behaviour the spec describes for
search_persons, which the LIKE pattern only realizes on queries free of
the percent and underscore metacharacters. -/
def hasSub (q : List Char) : List Char → Bool
  | [] => beginsWith q []
  | b :: bs => beginsWith q (b :: bs) || hasSub q bs

/-- SQLite LIKE pattern matching over case-folded characters (the source
uses no ESCAPE clause): a percent sign matches any sequence of characters,
an underscore matches exactly one character, and any other pattern
character matches itself.  An empty pattern matches only the empty
string. -/
def likeMatch : List Char → List Char → Bool
  | [], s => s.isEmpty
  | p :: ps, s =>
      if p = '%' then s.tails.any fun t => likeMatch ps t
      else
        match s with
        | [] => false
        | c :: cs => (p == '_' || p == c) && likeMatch ps cs

/-- The ORDER BY name ASC relation of search_persons. -/
def nameOrder (a b : PersonRow) : Prop := a.name ≤ b.name

instance nameOrder.decRel : DecidableRel nameOrder := fun a b =>
  inferInstanceAs (Decidable (a.name ≤ b.name))

/-- PersonDatabase.search_persons: SELECT * FROM persons WHERE name LIKE ?
with the raw query spliced between two percent signs, ORDER BY name ASC.
Because the query is interpolated into the pattern, percent and underscore
characters inside it act as LIKE wildcards; SQLite LIKE folds ASCII case
by default, modelled by mapping Char.toLower over both pattern and name. -/
def search_persons (db : DB) (query : String) : List PersonOut :=
  (List.insertionSort nameOrder
    (db.persons.filter fun p =>
      likeMatch ('%' :: (query.data.map Char.toLower ++ ['%']))
        (p.name.data.map Char.toLower))).map viewPerson

/-! ### Matcher data model (face_utils.py, FaceRecognitionSystem) -/

abbrev Embedding := List ℚ

/-- The in-memory projection of known faces: three parallel lists, as kept
by FaceRecognitionSystem (known_face_encodings / names / ids). -/
structure Matcher where
  known_face_encodings : List Embedding
  known_face_names : List String
  known_face_ids : List Nat
deriving DecidableEq, Repr

/-- FaceRecognitionSystem.load_known_faces: rebuild the projection from
get_all_persons, keeping only persons whose deserialized encoding is truthy
(a nonempty list). -/
def load_known_faces (db : DB) : Matcher :=
  let keep := (get_all_persons db).filter fun p => !p.face_encoding.isEmpty
  { known_face_encodings := keep.map fun p => p.face_encoding
    known_face_names := keep.map fun p => p.name
    known_face_ids := keep.map fun p => p.id }

/-- Sum of squared coordinate differences of two embeddings (numpy computes
this on equal-length 128-vectors; zip realizes the pairing). -/
def sumSqDiff (a b : Embedding) : ℚ :=
  ((a.zip b).map fun p => (p.1 - p.2) ^ 2).sum

/-- Modelled from the spec: face_recognition.face_distance, external to this
repository, returns the Euclidean distance between two embeddings (the
square root of the sum of squared coordinate differences). -/
noncomputable def euclidDist (a b : Embedding) : ℝ :=
  Real.sqrt ((sumSqDiff a b : ℚ) : ℝ)

/-- np.argmin scanning loop: `best` is the index of the least value seen so
far, `bv` that value, `i` the index of the head of the remaining list; a
later value replaces the champion only when strictly smaller, so the first
occurrence of the minimum wins. -/
def argminAux {α : Type} [LinearOrder α] : Nat → α → Nat → List α → Nat
  | best, _, _, [] => best
  | best, bv, i, a :: as =>
      if a < bv then argminAux i a (i + 1) as else argminAux best bv (i + 1) as

/-- np.argmin: the first index attaining the minimum (0 on an empty list,
where numpy instead raises). -/
def argminIdx {α : Type} [LinearOrder α] : List α → Nat
  | [] => 0
  | a :: as => argminAux 0 a 1 as

/-- np.argmax scanning loop: replaces the champion only when strictly
greater, so the first occurrence of the maximum wins. -/
def argmaxAux {α : Type} [LinearOrder α] : Nat → α → Nat → List α → Nat
  | best, _, _, [] => best
  | best, bv, i, a :: as =>
      if bv < a then argmaxAux i a (i + 1) as else argmaxAux best bv (i + 1) as

/-- np.argmax: the first index attaining the maximum. -/
def argmaxIdx {α : Type} [LinearOrder α] : List α → Nat
  | [] => 0
  | a :: as => argmaxAux 0 a 1 as

/-- One entry of the list returned by recognize_faces (the location field,
pure coordinate bookkeeping, is outside the matching contract). -/
structure FaceResult where
  name : String
  person_id : Option Nat
  confidence : ℝ

/-- The result recognize_faces assigns when no known face matches. -/
noncomputable def unknownResult : FaceResult :=
  { name := "Unknown", person_id := none, confidence := 0 }

/-- The matching step of FaceRecognitionSystem.recognize_faces for a single
detected face encoding: when the projection is nonempty, compare_faces
(modelled from the spec: the external library accepts a known embedding
when its Euclidean distance is below the tolerance 0.6 = 3/5) produces the
match mask; if any known face matches, np.argmin over face_distance picks
the best index, and the mask is consulted at that index before the name,
person id and confidence = 1 - distance are taken from it. -/
noncomputable def recognize_one (m : Matcher) (face_encoding : Embedding) :
    FaceResult :=
  if m.known_face_encodings.isEmpty then unknownResult
  else if _h : ∃ d ∈ m.known_face_encodings.map fun e => euclidDist e face_encoding,
      d < 3 / 5 then
    if (m.known_face_encodings.map fun e => euclidDist e face_encoding).getD
        (argminIdx (m.known_face_encodings.map fun e => euclidDist e face_encoding))
        0 < 3 / 5 then
      { name := m.known_face_names.getD
          (argminIdx (m.known_face_encodings.map fun e => euclidDist e face_encoding))
          "Unknown"
        person_id := some (m.known_face_ids.getD
          (argminIdx (m.known_face_encodings.map fun e => euclidDist e face_encoding))
          0)
        confidence := 1 - (m.known_face_encodings.map fun e => euclidDist e face_encoding).getD
          (argminIdx (m.known_face_encodings.map fun e => euclidDist e face_encoding))
          0 }
    else unknownResult
  else unknownResult

/-- FaceRecognitionSystem.recognize_faces, applied to the embeddings the
external library extracted from the frame: each detected face is matched
independently against the projection. -/
noncomputable def recognize_faces (m : Matcher) (encs : List Embedding) :
    List FaceResult :=
  encs.map (recognize_one m)

/-- A face bounding box as returned by face_recognition.face_locations:
(top, right, bottom, left) pixel coordinates. -/
structure Loc where
  top : Int
  right : Int
  bottom : Int
  left : Int
deriving DecidableEq, Repr, Inhabited

/-- The bounding-box area computed by register_new_face:
(bottom - top) * (right - left) in the working resolution. -/
def faceSize (l : Loc) : Int := (l.bottom - l.top) * (l.right - l.left)

/-- FaceRecognitionSystem.register_new_face, applied to the face locations
the external library found in the frame.  `encodeFace` stands for the
external face_encodings call on the chosen box; `none` models the caught
exception when it yields no encoding.  Returns the success flag and the new
Matcher and Registry states. -/
def register_new_face (m : Matcher) (db : DB) (now : Int) (locs : List Loc)
    (encodeFace : Loc → Option Embedding) (name : String)
    (metadata : Option Meta) : Bool × Matcher × DB :=
  if locs.isEmpty then (false, m, db)
  else
    match encodeFace (locs.getD (argmaxIdx (locs.map faceSize)) default) with
    | none => (false, m, db)
    | some enc =>
        match add_person db now name enc metadata with
        | (Except.error _, db') => (false, m, db')
        | (Except.ok pid, db') =>
            (true,
             { known_face_encodings := m.known_face_encodings ++ [enc]
               known_face_names := m.known_face_names ++ [name]
               known_face_ids := m.known_face_ids ++ [pid] }, db')

/-! ### Helper lemmas -/

/-- The modelled JSON round trip of a face encoding is lossless. -/
theorem decode_encode (e : List ℚ) : decodeEnc (encodeEnc e) = e := by
  induction e with
  | nil => rfl
  | cons q qs ih =>
    simp only [encodeEnc, decodeEnc, List.map_cons] at ih ⊢
    rw [ih]
    norm_num [Rat.num_div_den q]

theorem beginsWith_iff (q n : List Char) :
    beginsWith q n = true ↔ ∃ t, n = q ++ t := by
  induction q generalizing n with
  | nil => simp [beginsWith]
  | cons a as ih =>
    cases n with
    | nil => simp [beginsWith]
    | cons b bs =>
      simp only [beginsWith, Bool.and_eq_true, beq_iff_eq, ih, List.cons_append,
        List.cons.injEq]
      constructor
      · rintro ⟨rfl, t, rfl⟩
        exact ⟨t, rfl, rfl⟩
      · rintro ⟨t, rfl, rfl⟩
        exact ⟨rfl, t, rfl⟩

/-- `hasSub q n` holds exactly when `q` occurs contiguously inside `n`,
i.e. when `n` decomposes as `s ++ q ++ t`. -/
theorem hasSub_iff (q n : List Char) :
    hasSub q n = true ↔ ∃ s t, n = s ++ q ++ t := by
  induction n with
  | nil =>
    simp only [hasSub, beginsWith_iff]
    constructor
    · rintro ⟨t, ht⟩
      exact ⟨[], t, by simpa using ht⟩
    · rintro ⟨s, t, hst⟩
      rcases List.append_eq_nil.mp (List.append_eq_nil.mp hst.symm).1 with ⟨_, h2⟩
      exact ⟨[], by simp [h2]⟩
  | cons b bs ih =>
    simp only [hasSub, Bool.or_eq_true, beginsWith_iff, ih]
    constructor
    · rintro (⟨t, ht⟩ | ⟨s, t, hst⟩)
      · exact ⟨[], t, by simpa using ht⟩
      · exact ⟨b :: s, t, by simp [hst]⟩
    · rintro ⟨s, t, hst⟩
      cases s with
      | nil => exact Or.inl ⟨t, by simpa using hst⟩
      | cons c cs =>
        rcases hst with ⟨rfl, rfl⟩
        exact Or.inr ⟨cs, t, by simp⟩

/-- A LIKE pattern consisting of a metacharacter-free body followed by one
percent sign matches exactly the strings beginning with that body. -/
theorem likeMatch_begins : ∀ q : List Char, '%' ∉ q → '_' ∉ q →
    ∀ v : List Char, (likeMatch (q ++ ['%']) v = true ↔ ∃ t, v = q ++ t) := by
  intro q
  induction q with
  | nil =>
    intro _ _ v
    constructor
    · intro _
      exact ⟨v, rfl⟩
    · intro _
      simp only [List.nil_append, likeMatch, if_true]
      rw [List.any_eq_true]
      exact ⟨[], (List.mem_tails _ _).mpr List.nil_suffix, rfl⟩
  | cons a q ih =>
    intro hp hu v
    have ha : a ≠ '%' := by
      intro h
      subst h
      exact hp (List.mem_cons_self _ _)
    have hu' : a ≠ '_' := by
      intro h
      subst h
      exact hu (List.mem_cons_self _ _)
    have hpq : '%' ∉ q := fun hm => hp (List.mem_cons_of_mem a hm)
    have huq : '_' ∉ q := fun hm => hu (List.mem_cons_of_mem a hm)
    cases v with
    | nil => simp [likeMatch, List.cons_append, ha]
    | cons c cs =>
      simp only [List.cons_append, likeMatch, if_neg ha, Bool.and_eq_true,
        Bool.or_eq_true, beq_iff_eq]
      constructor
      · rintro ⟨hac | hac, hrec⟩
        · exact absurd hac hu'
        · obtain ⟨t, rfl⟩ := (ih hpq huq cs).mp hrec
          exact ⟨t, by rw [hac]⟩
      · rintro ⟨t, ht⟩
        injection ht with h1 h2
        exact ⟨Or.inr h1.symm, (ih hpq huq cs).mpr ⟨t, h2⟩⟩

/-- The LIKE pattern that search_persons builds from a metacharacter-free
query matches exactly the strings containing the query contiguously. -/
theorem likeMatch_pct_iff (q : List Char) (hp : '%' ∉ q) (hu : '_' ∉ q)
    (s : List Char) :
    likeMatch ('%' :: (q ++ ['%'])) s = true ↔ ∃ u t, s = u ++ q ++ t := by
  have hunfold : likeMatch ('%' :: (q ++ ['%'])) s =
      s.tails.any fun t => likeMatch (q ++ ['%']) t := by
    simp [likeMatch]
  rw [hunfold, List.any_eq_true]
  constructor
  · rintro ⟨t, htails, hmatch⟩
    obtain ⟨u, rfl⟩ := (List.mem_tails t s).mp htails
    obtain ⟨r, rfl⟩ := (likeMatch_begins q hp hu t).mp hmatch
    exact ⟨u, r, by rw [List.append_assoc]⟩
  · rintro ⟨u, r, rfl⟩
    refine ⟨q ++ r, (List.mem_tails _ _).mpr ⟨u, by rw [List.append_assoc]⟩, ?_⟩
    exact (likeMatch_begins q hp hu _).mpr ⟨r, rfl⟩

/-- On metacharacter-free queries, the spliced LIKE pattern coincides with
plain substring occurrence. -/
theorem likeMatch_eq_hasSub (q : List Char) (hp : '%' ∉ q) (hu : '_' ∉ q)
    (s : List Char) :
    likeMatch ('%' :: (q ++ ['%'])) s = hasSub q s := by
  rw [Bool.eq_iff_iff, likeMatch_pct_iff q hp hu s, hasSub_iff]

theorem personOrder_total : ∀ a b : PersonRow, personOrder a b ∨ personOrder b a := by
  intro a b
  unfold personOrder
  rcases a.last_seen with _ | x <;> rcases b.last_seen with _ | y
  · exact le_total a.name b.name
  · exact Or.inr trivial
  · exact Or.inl trivial
  · rcases lt_trichotomy x y with h | h | h
    · exact Or.inr (Or.inl h)
    · subst h
      rcases le_total a.name b.name with h | h
      · exact Or.inl (Or.inr ⟨rfl, h⟩)
      · exact Or.inr (Or.inr ⟨rfl, h⟩)
    · exact Or.inl (Or.inl h)

theorem personOrder_trans : ∀ a b c : PersonRow,
    personOrder a b → personOrder b c → personOrder a c := by
  intro a b c
  unfold personOrder
  rcases a.last_seen with _ | x <;> rcases b.last_seen with _ | y <;>
    rcases c.last_seen with _ | z <;> intro h1 h2
  · exact le_trans h1 h2
  · exact h2.elim
  · exact h1.elim
  · exact h1.elim
  · exact trivial
  · exact h2.elim
  · exact trivial
  · rcases h1 with h1 | ⟨rfl, h1⟩ <;> rcases h2 with h2 | ⟨rfl, h2⟩
    · exact Or.inl (lt_trans h2 h1)
    · exact Or.inl h1
    · exact Or.inl h2
    · exact Or.inr ⟨rfl, le_trans h1 h2⟩

instance personOrder.isTotal : IsTotal PersonRow personOrder :=
  ⟨personOrder_total⟩

instance personOrder.isTrans : IsTrans PersonRow personOrder :=
  ⟨personOrder_trans⟩

instance nameOrder.isTotal : IsTotal PersonRow nameOrder :=
  ⟨fun a b => le_total a.name b.name⟩

instance nameOrder.isTrans : IsTrans PersonRow nameOrder :=
  ⟨fun _ _ _ => le_trans⟩

instance countOrder.isTotal : IsTotal (String × Nat) countOrder :=
  ⟨fun a b => le_total b.2 a.2⟩

instance countOrder.isTrans : IsTrans (String × Nat) countOrder :=
  ⟨fun _ _ _ h1 h2 => le_trans h2 h1⟩

theorem argminAux_spec {α : Type} [LinearOrder α] (as : List α) :
    ∀ (best : Nat) (bv : α) (i : Nat),
      ∃ v : α,
        ((argminAux best bv i as = best ∧ v = bv) ∨
          ∃ j, j < as.length ∧ argminAux best bv i as = i + j ∧ v = as.getD j bv) ∧
        v ≤ bv ∧ ∀ a ∈ as, v ≤ a := by
  induction as with
  | nil =>
    intro best bv i
    exact ⟨bv, Or.inl ⟨rfl, rfl⟩, le_refl bv, by simp⟩
  | cons a as ih =>
    intro best bv i
    by_cases h : a < bv
    · have step : argminAux best bv i (a :: as) = argminAux i a (i + 1) as := by
        simp [argminAux, h]
      obtain ⟨v, hcase, hle, hall⟩ := ih i a (i + 1)
      refine ⟨v, ?_, le_of_lt (lt_of_le_of_lt hle h), ?_⟩
      · rcases hcase with ⟨heq, hv⟩ | ⟨j, hj, heq, hv⟩
        · exact Or.inr ⟨0, by simp, by simpa [step] using heq, by simpa using hv⟩
        · refine Or.inr ⟨j + 1, by simpa using hj, ?_, ?_⟩
          · rw [step, heq]; omega
          · rw [List.getD_cons_succ, hv,
              List.getD_eq_getElem as a hj, List.getD_eq_getElem as bv hj]
      · intro x hx
        rcases List.mem_cons.mp hx with rfl | hx
        · exact hle
        · exact hall x hx
    · have step : argminAux best bv i (a :: as) = argminAux best bv (i + 1) as := by
        simp [argminAux, h]
      obtain ⟨v, hcase, hle, hall⟩ := ih best bv (i + 1)
      refine ⟨v, ?_, hle, ?_⟩
      · rcases hcase with ⟨heq, hv⟩ | ⟨j, hj, heq, hv⟩
        · exact Or.inl ⟨by rwa [step], hv⟩
        · refine Or.inr ⟨j + 1, by simpa using hj, ?_, ?_⟩
          · rw [step, heq]; omega
          · rw [List.getD_cons_succ, hv]
      · intro x hx
        rcases List.mem_cons.mp hx with rfl | hx
        · exact le_trans hle (le_of_not_lt h)
        · exact hall x hx

theorem argminIdx_lt_length {α : Type} [LinearOrder α] (l : List α)
    (h : l ≠ []) : argminIdx l < l.length := by
  cases l with
  | nil => exact absurd rfl h
  | cons a as =>
    obtain ⟨v, hcase, _, _⟩ := argminAux_spec as 0 a 1
    rcases hcase with ⟨heq, _⟩ | ⟨j, hj, heq, _⟩ <;>
      simp only [argminIdx, heq, List.length_cons] <;> omega

theorem argminIdx_le {α : Type} [LinearOrder α] (l : List α) (h : l ≠ [])
    (d : α) : ∀ j, j < l.length → l.getD (argminIdx l) d ≤ l.getD j d := by
  cases l with
  | nil => exact absurd rfl h
  | cons a as =>
    obtain ⟨v, hcase, hle, hall⟩ := argminAux_spec as 0 a 1
    have hval : (a :: as).getD (argminIdx (a :: as)) d = v := by
      rcases hcase with ⟨heq, hv⟩ | ⟨j, hj, heq, hv⟩
      · simp [argminIdx, heq, hv]
      · have h1j : 1 + j = j + 1 := by omega
        simp only [argminIdx, heq, h1j, List.getD_cons_succ]
        rw [hv, List.getD_eq_getElem as a hj, List.getD_eq_getElem as d hj]
    intro j hj
    rw [hval]
    cases j with
    | zero => simpa using hle
    | succ j =>
      simp only [List.getD_cons_succ]
      have hjlen : j < as.length := by simpa using hj
      rw [List.getD_eq_getElem as d hjlen]
      exact hall _ (List.getElem_mem hjlen)

theorem argmaxAux_spec {α : Type} [LinearOrder α] (as : List α) :
    ∀ (best : Nat) (bv : α) (i : Nat),
      ∃ v : α,
        ((argmaxAux best bv i as = best ∧ v = bv) ∨
          ∃ j, j < as.length ∧ argmaxAux best bv i as = i + j ∧ v = as.getD j bv) ∧
        bv ≤ v ∧ ∀ a ∈ as, a ≤ v := by
  induction as with
  | nil =>
    intro best bv i
    exact ⟨bv, Or.inl ⟨rfl, rfl⟩, le_refl bv, by simp⟩
  | cons a as ih =>
    intro best bv i
    by_cases h : bv < a
    · have step : argmaxAux best bv i (a :: as) = argmaxAux i a (i + 1) as := by
        simp [argmaxAux, h]
      obtain ⟨v, hcase, hle, hall⟩ := ih i a (i + 1)
      refine ⟨v, ?_, le_of_lt (lt_of_lt_of_le h hle), ?_⟩
      · rcases hcase with ⟨heq, hv⟩ | ⟨j, hj, heq, hv⟩
        · exact Or.inr ⟨0, by simp, by simpa [step] using heq, by simpa using hv⟩
        · refine Or.inr ⟨j + 1, by simpa using hj, ?_, ?_⟩
          · rw [step, heq]; omega
          · rw [List.getD_cons_succ, hv,
              List.getD_eq_getElem as a hj, List.getD_eq_getElem as bv hj]
      · intro x hx
        rcases List.mem_cons.mp hx with rfl | hx
        · exact hle
        · exact hall x hx
    · have step : argmaxAux best bv i (a :: as) = argmaxAux best bv (i + 1) as := by
        simp [argmaxAux, h]
      obtain ⟨v, hcase, hle, hall⟩ := ih best bv (i + 1)
      refine ⟨v, ?_, hle, ?_⟩
      · rcases hcase with ⟨heq, hv⟩ | ⟨j, hj, heq, hv⟩
        · exact Or.inl ⟨by rwa [step], hv⟩
        · refine Or.inr ⟨j + 1, by simpa using hj, ?_, ?_⟩
          · rw [step, heq]; omega
          · rw [List.getD_cons_succ, hv]
      · intro x hx
        rcases List.mem_cons.mp hx with rfl | hx
        · exact le_trans (le_of_not_lt h) hle
        · exact hall x hx

theorem argmaxIdx_lt_length {α : Type} [LinearOrder α] (l : List α)
    (h : l ≠ []) : argmaxIdx l < l.length := by
  cases l with
  | nil => exact absurd rfl h
  | cons a as =>
    obtain ⟨v, hcase, _, _⟩ := argmaxAux_spec as 0 a 1
    rcases hcase with ⟨heq, _⟩ | ⟨j, hj, heq, _⟩ <;>
      simp only [argmaxIdx, heq, List.length_cons] <;> omega

theorem argmaxIdx_ge {α : Type} [LinearOrder α] (l : List α) (h : l ≠ [])
    (d : α) : ∀ j, j < l.length → l.getD j d ≤ l.getD (argmaxIdx l) d := by
  cases l with
  | nil => exact absurd rfl h
  | cons a as =>
    obtain ⟨v, hcase, hle, hall⟩ := argmaxAux_spec as 0 a 1
    have hval : (a :: as).getD (argmaxIdx (a :: as)) d = v := by
      rcases hcase with ⟨heq, hv⟩ | ⟨j, hj, heq, hv⟩
      · simp [argmaxIdx, heq, hv]
      · have h1j : 1 + j = j + 1 := by omega
        simp only [argmaxIdx, heq, h1j, List.getD_cons_succ]
        rw [hv, List.getD_eq_getElem as a hj, List.getD_eq_getElem as d hj]
    intro j hj
    rw [hval]
    cases j with
    | zero => simpa using hle
    | succ j =>
      simp only [List.getD_cons_succ]
      have hjlen : j < as.length := by simpa using hj
      rw [List.getD_eq_getElem as d hjlen]
      exact hall _ (List.getElem_mem hjlen)

/-- Mapping a function that fixes every element of a list is the identity. -/
theorem map_id_of_eq {α : Type} (l : List α) (f : α → α)
    (h : ∀ a ∈ l, f a = a) : l.map f = l := by
  induction l with
  | nil => rfl
  | cons a as ih =>
    rw [List.map_cons, h a (List.mem_cons_self a as),
      ih fun x hx => h x (List.mem_cons_of_mem a hx)]

/-- `getD` through `map`, at a valid index, with any defaults. -/
theorem getD_map {α β : Type} (l : List α) (f : α → β) (n : Nat)
    (hn : n < l.length) (d : β) (d' : α) :
    (l.map f).getD n d = f (l.getD n d') := by
  rw [List.getD_eq_getElem (l.map f) d (by simpa using hn),
    List.getD_eq_getElem l d' hn, List.getElem_map]

/-- `find?` commutes with a map that does not change the predicate. -/
theorem find?_map_invariant {α : Type} (l : List α) (p : α → Bool) (f : α → α)
    (hf : ∀ a, p (f a) = p a) :
    (l.map f).find? p = (l.find? p).map f := by
  induction l with
  | nil => rfl
  | cons a as ih =>
    by_cases h : p a
    · rw [List.map_cons, List.find?_cons_of_pos _ ((hf a).trans (by simp [h])),
        List.find?_cons_of_pos _ (by simp [h])]
      rfl
    · rw [List.map_cons, List.find?_cons_of_neg _ (by rw [hf]; exact h),
        List.find?_cons_of_neg _ h, ih]

/-- With a strict maximum at index `i`, np.argmax returns `i`. -/
theorem argmaxIdx_eq_of_strict {α : Type} [LinearOrder α] (l : List α)
    (h : l ≠ []) (d : α) (i : Nat) (hi : i < l.length)
    (hmax : ∀ j, j < l.length → j ≠ i → l.getD j d < l.getD i d) :
    argmaxIdx l = i := by
  by_contra hne
  have h1 := argmaxIdx_ge l h d i hi
  have h2 := hmax (argmaxIdx l) (argmaxIdx_lt_length l h) hne
  exact absurd h1 (not_le.mpr h2)

/-! ### Claim C5: get_all_persons ordering -/

/-- C5: getAllPersons returns every stored person (a permutation of the
deserialized table), ordered by last_seen descending with null last_seen
values last, ties broken by name ascending; each returned person is the
deserialization (viewPerson) of its stored row. -/
theorem C5_get_all_persons (db : DB) :
    (get_all_persons db).Perm (db.persons.map viewPerson) ∧
    List.Pairwise (fun a b : PersonOut =>
      match a.last_seen, b.last_seen with
      | some x, some y => y < x ∨ (x = y ∧ a.name ≤ b.name)
      | some _, none => True
      | none, some _ => False
      | none, none => a.name ≤ b.name) (get_all_persons db) := by
  constructor
  · exact (List.perm_insertionSort personOrder db.persons).map viewPerson
  · exact List.Pairwise.map viewPerson (fun a b hab => hab)
      (List.sorted_insertionSort personOrder db.persons)

/-- Witness for C5 at a concrete database with two persons. -/
theorem C5_witness :
    (get_all_persons
      { persons :=
          [{ id := 1, name := "Bob", face_encoding := [], registration_date := 0,
             last_seen := none, total_detections := 0, metadata := [] },
           { id := 2, name := "Alice", face_encoding := [], registration_date := 0,
             last_seen := some 4, total_detections := 1, metadata := [] }],
        logs := [], nextPersonId := 3, nextLogId := 1 }).Perm
      (List.map viewPerson
          [{ id := 1, name := "Bob", face_encoding := [], registration_date := 0,
             last_seen := none, total_detections := 0, metadata := [] },
           { id := 2, name := "Alice", face_encoding := [], registration_date := 0,
             last_seen := some 4, total_detections := 1, metadata := [] }]) :=
  (C5_get_all_persons _).1

/-! ### Claim C8: search_persons (corrected) -/

/-- C8 (amended): for every query free of the LIKE metacharacters percent
and underscore (after ASCII case folding), searchPersons returns exactly
the stored persons whose case-folded name contains the case-folded query
as a substring, ordered by name ascending; `hasSub` is substring
occurrence.  (On queries containing a metacharacter the spliced LIKE
pattern treats it as a wildcard instead, see the counterexample.) -/
theorem C8_search_persons (db : DB) (query : String)
    (hpct : '%' ∉ query.data.map Char.toLower)
    (hund : '_' ∉ query.data.map Char.toLower) :
    (search_persons db query).Perm
      ((db.persons.filter fun p =>
        hasSub (query.data.map Char.toLower)
          (p.name.data.map Char.toLower)).map viewPerson) ∧
    List.Pairwise (fun a b : PersonOut => a.name ≤ b.name)
      (search_persons db query) ∧
    ∀ n : List Char,
      (hasSub (query.data.map Char.toLower) n = true ↔
        ∃ s t, n = s ++ query.data.map Char.toLower ++ t) := by
  have hfilter : (db.persons.filter fun p =>
      likeMatch ('%' :: (query.data.map Char.toLower ++ ['%']))
        (p.name.data.map Char.toLower)) =
      db.persons.filter fun p =>
        hasSub (query.data.map Char.toLower) (p.name.data.map Char.toLower) :=
    List.filter_congr fun p _ => likeMatch_eq_hasSub _ hpct hund _
  refine ⟨?_, ?_, fun n => hasSub_iff _ n⟩
  · unfold search_persons
    rw [hfilter]
    exact (List.perm_insertionSort nameOrder _).map viewPerson
  · exact List.Pairwise.map viewPerson (fun a b hab => hab)
      (List.sorted_insertionSort nameOrder _)

/-- Witness for C8 at a concrete database and metacharacter-free query. -/
theorem C8_witness :
    (search_persons
      { persons :=
          [{ id := 1, name := "Alice", face_encoding := [], registration_date := 0,
             last_seen := none, total_detections := 0, metadata := [] }],
        logs := [], nextPersonId := 2, nextLogId := 1 } "lic").Perm
      (List.map viewPerson
        (List.filter
          (fun p => hasSub ("lic".data.map Char.toLower)
            (p.name.data.map Char.toLower))
          [{ id := 1, name := "Alice", face_encoding := [], registration_date := 0,
             last_seen := none, total_detections := 0, metadata := [] }])) :=
  (C8_search_persons _ "lic" (by decide) (by decide)).1

/-- A store holding one person whose name the query "a_b" reaches through
the underscore wildcard of the spliced LIKE pattern without containing the
query as a substring. -/
def likeDB : DB :=
  { persons :=
      [{ id := 1, name := "aXb", face_encoding := [], registration_date := 0,
         last_seen := none, total_detections := 0, metadata := [] }]
    logs := []
    nextPersonId := 2
    nextLogId := 1 }

/-- Counterexample to C8 as stated: searching likeDB for "a_b" returns the
person named "aXb" — the raw query is spliced into the LIKE pattern, so its
underscore matches the X — although "a_b" occurs nowhere in "aXb" as a
substring, even after case folding. -/
theorem C8_counterexample :
    search_persons likeDB "a_b" =
      [{ id := 1, name := "aXb", face_encoding := [], registration_date := 0,
         last_seen := none, total_detections := 0, metadata := [] }] ∧
    ¬ ∃ s t, "aXb".data.map Char.toLower =
      s ++ "a_b".data.map Char.toLower ++ t := by
  constructor
  · rfl
  · intro hex
    have hsub := (hasSub_iff ("a_b".data.map Char.toLower)
      ("aXb".data.map Char.toLower)).mpr hex
    exact absurd hsub (by decide)

/-! ### Claim C6: delete_person (corrected) -/

/-- C6 (amended): deletePerson removes the person row and every
detection-log row whose person_id equals the id, so getPersonById returns
absent afterwards; rows with other ids survive; the operation is
idempotent; and it is a no-op when no person row and also no detection-log
row carries the id.  (The unqualified no-op reading of the claim fails when
a dangling detection-log row references the absent id, see the
counterexample.) -/
theorem C6_delete_person (db : DB) (pid : Nat) :
    get_person_by_id (delete_person db pid) pid = none ∧
    (∀ l ∈ (delete_person db pid).logs, l.person_id ≠ pid) ∧
    (∀ p ∈ db.persons, p.id ≠ pid → p ∈ (delete_person db pid).persons) ∧
    (∀ l ∈ db.logs, l.person_id ≠ pid → l ∈ (delete_person db pid).logs) ∧
    delete_person (delete_person db pid) pid = delete_person db pid ∧
    ((∀ p ∈ db.persons, p.id ≠ pid) → (∀ l ∈ db.logs, l.person_id ≠ pid) →
      delete_person db pid = db) := by
  refine ⟨?_, ?_, ?_, ?_, ?_, ?_⟩
  · unfold get_person_by_id delete_person
    rw [List.find?_eq_none.mpr]
    · rfl
    · intro p hp
      have := (List.mem_filter.mp hp).2
      simpa using this
  · intro l hl
    have := (List.mem_filter.mp hl).2
    simpa using this
  · intro p hp hne
    exact List.mem_filter.mpr ⟨hp, by simpa using hne⟩
  · intro l hl hne
    exact List.mem_filter.mpr ⟨hl, by simpa using hne⟩
  · unfold delete_person
    simp [List.filter_filter]
  · intro hp hl
    unfold delete_person
    rw [List.filter_eq_self.mpr fun p hmem => by simpa using hp p hmem,
      List.filter_eq_self.mpr fun l hmem => by simpa using hl l hmem]

/-- Witness for C6: the conditional no-op discharged at a database holding
one unrelated person and one unrelated log row. -/
theorem C6_witness :
    delete_person
      { persons :=
          [{ id := 1, name := "Alice", face_encoding := [], registration_date := 0,
             last_seen := none, total_detections := 0, metadata := [] }],
        logs := [{ id := 1, person_id := 1, detection_time := 3, confidence := none }],
        nextPersonId := 2, nextLogId := 2 } 9 =
      { persons :=
          [{ id := 1, name := "Alice", face_encoding := [], registration_date := 0,
             last_seen := none, total_detections := 0, metadata := [] }],
        logs := [{ id := 1, person_id := 1, detection_time := 3, confidence := none }],
        nextPersonId := 2, nextLogId := 2 } :=
  (C6_delete_person _ 9).2.2.2.2.2 (by decide) (by decide)

/-- A database whose only detection-log row dangles: person id 5 does not
exist (delete_person removed the person earlier, or the row was logged from
a stale projection). -/
def danglingDB : DB :=
  { persons := []
    logs := [{ id := 0, person_id := 5, detection_time := 0, confidence := none }]
    nextPersonId := 1
    nextLogId := 1 }

/-- Counterexample to C6 as stated: id 5 is non-existent (getPersonById
returns absent) yet deletePerson 5 is not a no-op — it deletes the dangling
detection-log row referencing id 5. -/
theorem C6_counterexample :
    get_person_by_id danglingDB 5 = none ∧ delete_person danglingDB 5 ≠ danglingDB := by
  constructor
  · rfl
  · intro h
    have := congrArg (fun d => d.logs.length) h
    simp [delete_person, danglingDB] at this

/-! ### Claim C7: update_person frame conditions -/

/-- Whenever update_person succeeds, the resulting database is the input
with exactly the addressed rows rewritten by the generated SET clause. -/
theorem update_ok_shape (db : DB) (pid : Nat) (name : Option String)
    (meta : Option Meta) (db' : DB)
    (h : update_person db pid name meta = Except.ok db') :
    db' = { db with persons := db.persons.map fun p =>
        if p.id = pid then applyUpd (effName name) meta p else p } := by
  unfold update_person at h
  split at h
  · next h0 =>
    simp only [Except.ok.injEq] at h
    simp only [Bool.and_eq_true, Option.isNone_iff_eq_none] at h0
    obtain ⟨hnm, hmeta⟩ := h0
    subst hmeta
    rw [← h, hnm, map_id_of_eq]
    intro p _
    by_cases hc : p.id = pid
    · rw [if_pos hc]
      rfl
    · rw [if_neg hc]
  · split at h
    · next n hnm =>
      split at h
      · exact absurd h (by simp)
      · simp only [Except.ok.injEq] at h
        rw [← h, hnm]
    · next hnm =>
      simp only [Except.ok.injEq] at h
      rw [← h, hnm]

/-- C7: updatePerson changes only the supplied fields of the addressed
person — its embedding, registration_date, last_seen, total_detections and
every other row are untouched; with neither field supplied it is a no-op;
with no matching id it succeeds and affects zero rows.  (An empty string
name is truthiness-filtered out by the source, hence `effName`.) -/
theorem C7_update_person (db : DB) (pid : Nat) (name : Option String)
    (meta : Option Meta) :
    update_person db pid none none = Except.ok db ∧
    ((∀ p ∈ db.persons, p.id ≠ pid) →
      update_person db pid name meta = Except.ok db) ∧
    (∀ db', update_person db pid name meta = Except.ok db' →
      db'.logs = db.logs ∧
      db'.nextPersonId = db.nextPersonId ∧
      db'.nextLogId = db.nextLogId ∧
      db'.persons.length = db.persons.length ∧
      (∀ i, i < db.persons.length →
        ((db.persons.getD i default).id ≠ pid →
          db'.persons.getD i default = db.persons.getD i default) ∧
        ((db.persons.getD i default).id = pid →
          (db'.persons.getD i default).id = (db.persons.getD i default).id ∧
          (db'.persons.getD i default).face_encoding =
            (db.persons.getD i default).face_encoding ∧
          (db'.persons.getD i default).registration_date =
            (db.persons.getD i default).registration_date ∧
          (db'.persons.getD i default).last_seen =
            (db.persons.getD i default).last_seen ∧
          (db'.persons.getD i default).total_detections =
            (db.persons.getD i default).total_detections ∧
          (db'.persons.getD i default).name =
            (effName name).getD (db.persons.getD i default).name ∧
          (db'.persons.getD i default).metadata =
            meta.getD (db.persons.getD i default).metadata))) := by
  refine ⟨rfl, ?_, ?_⟩
  · intro habs
    unfold update_person
    split
    · rfl
    · have hmap : (db.persons.map fun p =>
          if p.id = pid then applyUpd (effName name) meta p else p) = db.persons :=
        map_id_of_eq _ _ fun p hp => if_neg (habs p hp)
      split
      · have hany : (db.persons.any fun p => p.id == pid) = false :=
          List.any_eq_false.mpr fun p hp => by simpa using habs p hp
        rw [if_neg (by simp [hany])]
        exact congrArg Except.ok (by rw [hmap])
      · exact congrArg Except.ok (by rw [hmap])
  · intro db' h
    have hsh := update_ok_shape db pid name meta db' h
    subst hsh
    refine ⟨rfl, rfl, rfl, by simp, ?_⟩
    intro i hi
    have hlt : i < (db.persons.map fun p =>
        if p.id = pid then applyUpd (effName name) meta p else p).length := by
      simpa using hi
    have hrw : (db.persons.map fun p =>
        if p.id = pid then applyUpd (effName name) meta p else p).getD i default =
        (fun p => if p.id = pid then applyUpd (effName name) meta p else p)
          (db.persons.getD i default) :=
      getD_map db.persons _ i hi default default
    constructor
    · intro hne
      rw [hrw]
      exact if_neg hne
    · intro heq
      rw [hrw]
      simp only [if_pos heq]
      exact ⟨rfl, rfl, rfl, rfl, rfl, rfl, rfl⟩

/-- Witness for C7: frame conditions at a concrete two-person database. -/
theorem C7_witness :
    update_person
      { persons :=
          [{ id := 1, name := "Alice", face_encoding := [], registration_date := 0,
             last_seen := none, total_detections := 0, metadata := [] },
           { id := 2, name := "Bob", face_encoding := [], registration_date := 0,
             last_seen := none, total_detections := 0, metadata := [] }],
        logs := [], nextPersonId := 3, nextLogId := 1 } 7 (some "Carol") none =
      Except.ok
      { persons :=
          [{ id := 1, name := "Alice", face_encoding := [], registration_date := 0,
             last_seen := none, total_detections := 0, metadata := [] },
           { id := 2, name := "Bob", face_encoding := [], registration_date := 0,
             last_seen := none, total_detections := 0, metadata := [] }],
        logs := [], nextPersonId := 3, nextLogId := 1 } :=
  (C7_update_person _ 7 (some "Carol") none).2.1 (by decide)

/-! ### Claim C3: add_person -/

/-- C3: with a fresh name, addPerson inserts a person with
registration_date = now, total_detections = 0, last_seen = null and returns
the new id, and getPersonById on that id returns the given name and the
embedding round-tripped through serialization; with a duplicate name it
raises the DuplicateName error kind and leaves the database unchanged.
(`hfresh` is the AUTOINCREMENT invariant: no stored row carries the next
free id.) -/
theorem C3_add_person (db : DB) (now : Int) (name : String) (enc : List ℚ)
    (meta : Option Meta)
    (hfresh : ∀ p ∈ db.persons, p.id ≠ db.nextPersonId) :
    ((∃ p ∈ db.persons, p.name = name) →
      add_person db now name enc meta =
        (Except.error (DBErr.duplicateName name), db)) ∧
    ((∀ p ∈ db.persons, p.name ≠ name) →
      add_person db now name enc meta =
        (Except.ok db.nextPersonId,
         { db with
            persons := db.persons ++
              [{ id := db.nextPersonId, name := name,
                 face_encoding := encodeEnc enc, registration_date := now,
                 last_seen := none, total_detections := 0,
                 metadata := meta.getD [] }]
            nextPersonId := db.nextPersonId + 1 }) ∧
      get_person_by_id (add_person db now name enc meta).2 db.nextPersonId =
        some { id := db.nextPersonId, name := name, face_encoding := enc,
               registration_date := now, last_seen := none,
               total_detections := 0, metadata := meta.getD [] }) := by
  constructor
  · rintro ⟨p, hp, hname⟩
    unfold add_person
    rw [if_pos (List.any_eq_true.mpr ⟨p, hp, by simp [hname]⟩)]
  · intro hfr
    have hany : (db.persons.any fun p => p.name == name) = false :=
      List.any_eq_false.mpr fun p hp => by simpa using hfr p hp
    have heq : add_person db now name enc meta =
        (Except.ok db.nextPersonId,
         { db with
            persons := db.persons ++
              [{ id := db.nextPersonId, name := name,
                 face_encoding := encodeEnc enc, registration_date := now,
                 last_seen := none, total_detections := 0,
                 metadata := meta.getD [] }]
            nextPersonId := db.nextPersonId + 1 }) := by
      unfold add_person
      rw [if_neg (by simp [hany])]
    refine ⟨heq, ?_⟩
    rw [heq]
    unfold get_person_by_id
    rw [List.find?_append,
      List.find?_eq_none.mpr fun p hp => by simpa using hfresh p hp,
      Option.none_or, List.find?_cons_of_pos _ (by simp)]
    simp [viewPerson, decode_encode]

/-- Witness for C3: registering into an empty database and reading the
person back. -/
theorem C3_witness :
    get_person_by_id
      (add_person { persons := [], logs := [], nextPersonId := 1, nextLogId := 1 }
        11 "Alice" [1/2, -3] none).2 1 =
      some { id := 1, name := "Alice", face_encoding := [1/2, -3],
             registration_date := 11, last_seen := none,
             total_detections := 0, metadata := [] } :=
  ((C3_add_person
      { persons := [], logs := [], nextPersonId := 1, nextLogId := 1 }
      11 "Alice" [1/2, -3] none (by decide)).2
    (by decide)).2

/-! ### Claim C2: log_detection -/

/-- The number of detection-log rows referencing a person id
(SELECT COUNT(*) FROM detection_logs WHERE person_id = ?). -/
def countLogs (db : DB) (pid : Nat) : Nat :=
  (db.logs.filter fun l => l.person_id == pid).length

/-- A sequence of log_detection calls for one person; each call carries the
wall-clock time it reads and its confidence argument. -/
def logMany (db : DB) (pid : Nat) (calls : List (Int × Option ℚ)) : DB :=
  calls.foldl (fun d c => log_detection d c.1 pid c.2) db

theorem log_detection_get (db : DB) (now : Int) (pid : Nat) (conf : Option ℚ)
    (p0 : PersonOut) (hp : get_person_by_id db pid = some p0) :
    get_person_by_id (log_detection db now pid conf) pid =
      some { p0 with last_seen := some now,
                     total_detections := p0.total_detections + 1 } := by
  unfold get_person_by_id at hp ⊢
  have hpersons : (log_detection db now pid conf).persons =
      db.persons.map fun p =>
        if p.id = pid then
          { p with last_seen := some now,
                   total_detections := p.total_detections + 1 }
        else p := rfl
  rw [hpersons, find?_map_invariant _ _ _
    fun a => by by_cases h : a.id = pid <;> simp [h]]
  rcases hfind : db.persons.find? (fun p => p.id == pid) with _ | row
  · rw [hfind] at hp
    exact absurd hp (by simp)
  · rw [hfind] at hp
    rw [hfind]
    have hview : viewPerson row = p0 := by simpa using hp
    have hid : row.id = pid := by simpa using List.find?_some hfind
    simp only [Option.map_some']
    rw [if_pos hid, ← hview]
    rfl

theorem log_detection_countLogs (db : DB) (now : Int) (pid : Nat)
    (conf : Option ℚ) :
    countLogs (log_detection db now pid conf) pid = countLogs db pid + 1 := by
  unfold countLogs log_detection
  simp [List.filter_append]

theorem log_detection_logs_sub (db : DB) (now : Int) (pid : Nat)
    (conf : Option ℚ) :
    ∀ l ∈ (log_detection db now pid conf).logs,
      l ∈ db.logs ∨ l.detection_time = now := by
  intro l hl
  rcases List.mem_append.mp hl with h | h
  · exact Or.inl h
  · right
    have : l = { id := db.nextLogId, person_id := pid,
                 detection_time := now, confidence := conf } := by simpa using h
    rw [this]

theorem logMany_append (db : DB) (pid : Nat) (calls : List (Int × Option ℚ))
    (c : Int × Option ℚ) :
    logMany db pid (calls ++ [c]) =
      log_detection (logMany db pid calls) c.1 pid c.2 := by
  unfold logMany
  rw [List.foldl_append]
  rfl

theorem logMany_get (pid : Nat) (calls : List (Int × Option ℚ)) :
    ∀ (db : DB) (p0 : PersonOut), get_person_by_id db pid = some p0 →
      get_person_by_id (logMany db pid calls) pid =
        some { p0 with
          total_detections := p0.total_detections + calls.length
          last_seen :=
            match calls.getLast? with
            | none => p0.last_seen
            | some c => some c.1 } := by
  induction calls using List.reverseRecOn with
  | nil =>
    intro db p0 hp
    exact hp
  | append_singleton cs c ih =>
    intro db p0 hp
    rw [logMany_append, log_detection_get _ c.1 pid c.2 _ (ih db p0 hp)]
    rw [List.getLast?_concat, List.length_append]
    rfl

theorem logMany_countLogs (db : DB) (pid : Nat)
    (calls : List (Int × Option ℚ)) :
    countLogs (logMany db pid calls) pid = countLogs db pid + calls.length := by
  induction calls using List.reverseRecOn with
  | nil => rfl
  | append_singleton cs c ih =>
    rw [logMany_append, log_detection_countLogs, ih, List.length_append,
      List.length_singleton]
    omega

theorem logMany_logs_len (db : DB) (pid : Nat)
    (calls : List (Int × Option ℚ)) :
    (logMany db pid calls).logs.length = db.logs.length + calls.length := by
  induction calls using List.reverseRecOn with
  | nil => rfl
  | append_singleton cs c ih =>
    rw [logMany_append, show (log_detection (logMany db pid cs) c.1 pid c.2).logs
      = (logMany db pid cs).logs ++ [_] from rfl]
    rw [List.length_append, ih, List.length_append, List.length_singleton,
      List.length_singleton]
    omega

theorem logMany_logs_time (db : DB) (pid : Nat)
    (calls : List (Int × Option ℚ)) :
    ∀ l ∈ (logMany db pid calls).logs,
      l ∈ db.logs ∨ l.detection_time ∈ calls.map Prod.fst := by
  induction calls using List.reverseRecOn with
  | nil =>
    intro l hl
    exact Or.inl hl
  | append_singleton cs c ih =>
    intro l hl
    rw [logMany_append] at hl
    rcases log_detection_logs_sub _ _ _ _ l hl with h | h
    · rcases ih l h with h' | h'
      · exact Or.inl h'
      · right
        rw [List.map_append]
        exact List.mem_append_left _ h'
    · right
      rw [List.map_append, h]
      exact List.mem_append_right _ (by simp)

/-- C2: starting from a person with zero stored detections and no log rows,
a sequence of N logDetection calls with nondecreasing wall-clock times
yields total_detections = N, exactly N detection-log rows referencing the
id (and N rows added in all), and last_seen equal to the detection time of
the most recent such row — the final call; every log row referencing the id
carries a detection time bounded by it.  The row insert and the counter and
last_seen update are one atomic step of the model (log_detection applies
both in the same transition), never one without the other. -/
theorem C2_log_detection (db : DB) (pid : Nat) (p0 : PersonOut)
    (cs : List (Int × Option ℚ)) (tN : Int) (cN : Option ℚ)
    (hp : get_person_by_id db pid = some p0)
    (htot : p0.total_detections = 0)
    (hcnt : countLogs db pid = 0)
    (hmono : List.Pairwise (fun a b : Int × Option ℚ => a.1 ≤ b.1)
      (cs ++ [(tN, cN)])) :
    get_person_by_id (logMany db pid (cs ++ [(tN, cN)])) pid =
      some { p0 with total_detections := (cs ++ [(tN, cN)]).length,
                     last_seen := some tN } ∧
    countLogs (logMany db pid (cs ++ [(tN, cN)])) pid =
      (cs ++ [(tN, cN)]).length ∧
    (logMany db pid (cs ++ [(tN, cN)])).logs.length =
      db.logs.length + (cs ++ [(tN, cN)]).length ∧
    ∀ l ∈ (logMany db pid (cs ++ [(tN, cN)])).logs,
      l.person_id = pid → l.detection_time ≤ tN := by
  refine ⟨?_, ?_, logMany_logs_len db pid _, ?_⟩
  · rw [logMany_get pid _ db p0 hp]
    rw [List.getLast?_concat]
    simp [htot]
  · rw [logMany_countLogs, hcnt]
    exact Nat.zero_add _
  · intro l hl hpid
    rcases logMany_logs_time db pid _ l hl with h | h
    · exfalso
      have hnil : db.logs.filter (fun l => l.person_id == pid) = [] :=
        List.length_eq_zero.mp hcnt
      have hmem : l ∈ db.logs.filter (fun l => l.person_id == pid) :=
        List.mem_filter.mpr ⟨h, by simp [hpid]⟩
      rw [hnil] at hmem
      exact absurd hmem (List.not_mem_nil l)
    · rw [List.map_append] at h
      rcases List.mem_append.mp h with h | h
      · obtain ⟨x, hx, hxt⟩ := List.mem_map.mp h
        have hle := (List.pairwise_append.mp hmono).2.2 x hx (tN, cN) (by simp)
        rw [← hxt]
        exact hle
      · have : l.detection_time = tN := by simpa using h
        exact le_of_eq this

/-- Witness for C2: two detections logged for a fresh person. -/
theorem C2_witness :
    get_person_by_id
      (logMany
        { persons :=
            [{ id := 1, name := "Alice", face_encoding := [],
               registration_date := 0, last_seen := none,
               total_detections := 0, metadata := [] }],
          logs := [], nextPersonId := 2, nextLogId := 1 }
        1 ([(3, none)] ++ [(4, none)])) 1 =
      some { id := 1, name := "Alice", face_encoding := [],
             registration_date := 0, last_seen := some 4,
             total_detections := 2, metadata := [] } :=
  (C2_log_detection
    { persons :=
        [{ id := 1, name := "Alice", face_encoding := [],
           registration_date := 0, last_seen := none,
           total_detections := 0, metadata := [] }],
      logs := [], nextPersonId := 2, nextLogId := 1 }
    1
    { id := 1, name := "Alice", face_encoding := [], registration_date := 0,
      last_seen := none, total_detections := 0, metadata := [] }
    [(3, none)] 4 none (by decide) (by decide) (by decide) (by decide)).1

/-! ### Claim C9: get_detection_stats -/

/-- C9: getDetectionStats aggregates only events with detection_time
strictly greater than now − windowDays: totalDetections counts them,
uniquePersons counts the distinct person ids among them, topVisitors holds
at most 5 entries ranked by count descending, each entry the name of a
stored person with the positive in-window count of that person; and the
statistics are
unchanged when the out-of-window events are discarded beforehand (they
contribute to none of the three). -/
theorem C9_get_detection_stats (db : DB) (now : Int) (days : Int) :
    (get_detection_stats db now days).total_detections =
      (db.logs.filter fun l => now - days < l.detection_time).length ∧
    (get_detection_stats db now days).unique_persons =
      ((db.logs.filter fun l => now - days < l.detection_time).map
        (fun l => l.person_id)).toFinset.card ∧
    (get_detection_stats db now days).top_visitors.length ≤ 5 ∧
    List.Pairwise (fun a b : String × Nat => b.2 ≤ a.2)
      (get_detection_stats db now days).top_visitors ∧
    (∀ v ∈ (get_detection_stats db now days).top_visitors,
      0 < v.2 ∧ ∃ p ∈ db.persons, p.name = v.1 ∧
        v.2 = (((db.logs.filter fun l => now - days < l.detection_time).filter
          fun l => l.person_id == p.id)).length) ∧
    get_detection_stats
      { db with logs := db.logs.filter fun l => now - days < l.detection_time }
      now days = get_detection_stats db now days := by
  refine ⟨rfl, (List.card_toFinset _).symm, List.length_take_le _ _, ?_, ?_, ?_⟩
  · exact List.Pairwise.sublist (List.take_sublist 5 _)
      (List.sorted_insertionSort countOrder _)
  · intro v hv
    have hv' : v ∈ List.insertionSort countOrder
        (db.persons.filterMap fun p =>
          let c := ((db.logs.filter fun l => now - days < l.detection_time).filter
            fun l => l.person_id == p.id).length
          if c = 0 then none else some (p.name, c)) := List.mem_of_mem_take hv
    have hv'' := (List.perm_insertionSort countOrder _).mem_iff.mp hv'
    obtain ⟨p, hp, hsome⟩ := List.mem_filterMap.mp hv''
    by_cases hc : ((db.logs.filter fun l => now - days < l.detection_time).filter
        fun l => l.person_id == p.id).length = 0
    · rw [if_pos hc] at hsome
      exact absurd hsome (by simp)
    · rw [if_neg hc] at hsome
      obtain rfl := Option.some_injective _ hsome
      exact ⟨Nat.pos_of_ne_zero hc, p, hp, rfl, rfl⟩
  · simp only [get_detection_stats, List.filter_filter, Bool.and_self]

/-- A concrete store for the C9 witness: one person, one in-window and one
out-of-window detection event. -/
def statsDB : DB :=
  { persons :=
      [{ id := 1, name := "Alice", face_encoding := [], registration_date := 0,
         last_seen := some 5, total_detections := 2, metadata := [] }]
    logs :=
      [{ id := 1, person_id := 1, detection_time := 5, confidence := none },
       { id := 2, person_id := 1, detection_time := -5, confidence := none }]
    nextPersonId := 2
    nextLogId := 3 }

/-- Witness for C9: the top-visitor entry of `statsDB` is Alice with her
in-window count. -/
theorem C9_witness :
    0 < (("Alice", 1) : String × Nat).2 ∧
    ∃ p ∈ statsDB.persons, p.name = (("Alice", 1) : String × Nat).1 ∧
      (("Alice", 1) : String × Nat).2 =
        ((statsDB.logs.filter fun l => (6 : Int) - 2 < l.detection_time).filter
          fun l => l.person_id == p.id).length :=
  (C9_get_detection_stats statsDB 6 2).2.2.2.2.1 ("Alice", 1) (by decide)

/-! ### Claim C1: recognize_faces matching -/

theorem recognize_one_empty (m : Matcher) (q : Embedding)
    (h : m.known_face_encodings = []) : recognize_one m q = unknownResult := by
  unfold recognize_one
  rw [if_pos (by simp [h])]

theorem recognize_one_nomatch (m : Matcher) (q : Embedding)
    (h : ∀ e ∈ m.known_face_encodings, ¬ euclidDist e q < 3 / 5) :
    recognize_one m q = unknownResult := by
  unfold recognize_one
  by_cases he : m.known_face_encodings.isEmpty
  · rw [if_pos he]
  · rw [if_neg he, dif_neg]
    rintro ⟨d, hd, hlt⟩
    obtain ⟨e, he', rfl⟩ := List.mem_map.mp hd
    exact h e he' hlt

theorem recognize_one_match (m : Matcher) (q : Embedding)
    (hex : ∃ e ∈ m.known_face_encodings, euclidDist e q < 3 / 5) :
    ∃ i, i < m.known_face_encodings.length ∧
      recognize_one m q =
        { name := m.known_face_names.getD i "Unknown"
          person_id := some (m.known_face_ids.getD i 0)
          confidence := 1 - euclidDist (m.known_face_encodings.getD i []) q } ∧
      euclidDist (m.known_face_encodings.getD i []) q < 3 / 5 ∧
      ∀ j, j < m.known_face_encodings.length →
        euclidDist (m.known_face_encodings.getD i []) q ≤
          euclidDist (m.known_face_encodings.getD j []) q := by
  obtain ⟨e0, he0, hlt0⟩ := hex
  have hne : m.known_face_encodings ≠ [] := by
    intro h0
    rw [h0] at he0
    exact absurd he0 (List.not_mem_nil _)
  have hdsne : (m.known_face_encodings.map fun e => euclidDist e q) ≠ [] :=
    fun hnil => hne (List.map_eq_nil_iff.mp hnil)
  have hlen : (m.known_face_encodings.map fun e => euclidDist e q).length =
      m.known_face_encodings.length := List.length_map _ _
  have hexd : ∃ d ∈ m.known_face_encodings.map fun e => euclidDist e q, d < 3 / 5 :=
    ⟨euclidDist e0 q, List.mem_map_of_mem _ he0, hlt0⟩
  have hgd : ∀ j, j < m.known_face_encodings.length →
      (m.known_face_encodings.map fun e => euclidDist e q).getD j 0 =
        euclidDist (m.known_face_encodings.getD j []) q := by
    intro j hj
    exact getD_map _ _ j hj 0 []
  have hilt : argminIdx (m.known_face_encodings.map fun e => euclidDist e q) <
      m.known_face_encodings.length := by
    rw [← hlen]
    exact argminIdx_lt_length _ hdsne
  have hmin := argminIdx_le (m.known_face_encodings.map fun e => euclidDist e q)
    hdsne 0
  obtain ⟨j0, hj0, hj0e⟩ := List.mem_iff_getElem.mp he0
  have hbest : (m.known_face_encodings.map fun e => euclidDist e q).getD
      (argminIdx (m.known_face_encodings.map fun e => euclidDist e q)) 0 < 3 / 5 := by
    have hstep := hmin j0 (by rw [hlen]; exact hj0)
    have hval : (m.known_face_encodings.map fun e => euclidDist e q).getD j0 0 =
        euclidDist e0 q := by
      rw [hgd j0 hj0, List.getD_eq_getElem _ [] hj0, hj0e]
    rw [hval] at hstep
    exact lt_of_le_of_lt hstep hlt0
  refine ⟨argminIdx (m.known_face_encodings.map fun e => euclidDist e q),
    hilt, ?_, ?_, ?_⟩
  · unfold recognize_one
    rw [if_neg (by simp [hne]), dif_pos hexd, if_pos hbest,
      hgd _ hilt]
  · rw [← hgd _ hilt]
    exact hbest
  · intro j hj
    rw [← hgd _ hilt, ← hgd _ hj]
    exact hmin j (by rw [hlen]; exact hj)

/-- C1: recognizeFaces matches each detected face independently: when the
projection is empty the face is Unknown with null personId and confidence
0; when no known embedding lies at Euclidean distance below the tolerance
0.6 = 3/5 the face is likewise Unknown; otherwise the face is matched to a
minimum-distance known embedding, taking the name and person id at that index
and confidence = 1 − distance. -/
theorem C1_recognize_faces (m : Matcher) (encs : List Embedding)
    (h1 : m.known_face_names.length = m.known_face_encodings.length)
    (h2 : m.known_face_ids.length = m.known_face_encodings.length) :
    (recognize_faces m encs).length = encs.length ∧
    ∀ k, k < encs.length →
      (recognize_faces m encs).getD k unknownResult =
        recognize_one m (encs.getD k []) ∧
      (m.known_face_encodings = [] →
        recognize_one m (encs.getD k []) = unknownResult) ∧
      ((∀ e ∈ m.known_face_encodings, ¬ euclidDist e (encs.getD k []) < 3 / 5) →
        recognize_one m (encs.getD k []) = unknownResult) ∧
      ((∃ e ∈ m.known_face_encodings, euclidDist e (encs.getD k []) < 3 / 5) →
        ∃ i, i < m.known_face_encodings.length ∧
          recognize_one m (encs.getD k []) =
            { name := m.known_face_names.getD i "Unknown"
              person_id := some (m.known_face_ids.getD i 0)
              confidence :=
                1 - euclidDist (m.known_face_encodings.getD i []) (encs.getD k []) } ∧
          euclidDist (m.known_face_encodings.getD i []) (encs.getD k []) < 3 / 5 ∧
          ∀ j, j < m.known_face_encodings.length →
            euclidDist (m.known_face_encodings.getD i []) (encs.getD k []) ≤
              euclidDist (m.known_face_encodings.getD j []) (encs.getD k [])) :=
  ⟨List.length_map _ _, fun k hk =>
    ⟨getD_map encs _ k hk unknownResult [],
     recognize_one_empty m _,
     recognize_one_nomatch m _,
     recognize_one_match m _⟩⟩

/-- A one-person projection for the C1 witness. -/
def wMatcher : Matcher :=
  { known_face_encodings := [[0]]
    known_face_names := ["Alice"]
    known_face_ids := [7] }

/-- Witness for C1: a query embedding at Euclidean distance 1/2 < 3/5 from
the single known embedding is matched to it. -/
theorem C1_witness :
    ∃ i, i < wMatcher.known_face_encodings.length ∧
      recognize_one wMatcher [(1 : ℚ)/2] =
        { name := wMatcher.known_face_names.getD i "Unknown"
          person_id := some (wMatcher.known_face_ids.getD i 0)
          confidence :=
            1 - euclidDist (wMatcher.known_face_encodings.getD i []) [(1 : ℚ)/2] } ∧
      euclidDist (wMatcher.known_face_encodings.getD i []) [(1 : ℚ)/2] < 3 / 5 ∧
      ∀ j, j < wMatcher.known_face_encodings.length →
        euclidDist (wMatcher.known_face_encodings.getD i []) [(1 : ℚ)/2] ≤
          euclidDist (wMatcher.known_face_encodings.getD j []) [(1 : ℚ)/2] := by
  have hd : euclidDist [(0 : ℚ)] [(1 : ℚ)/2] < 3 / 5 := by
    unfold euclidDist
    have hs : sumSqDiff [(0 : ℚ)] [(1 : ℚ)/2] = 1/4 := by
      norm_num [sumSqDiff]
    rw [hs, show (((1 : ℚ)/4 : ℚ) : ℝ) = (1/2 : ℝ)^2 by push_cast; norm_num,
      Real.sqrt_sq (by norm_num : (0:ℝ) ≤ 1/2)]
    norm_num
  exact ((C1_recognize_faces wMatcher [[(1 : ℚ)/2]] rfl rfl).2 0
    (by decide)).2.2.2 ⟨[0], by simp [wMatcher], hd⟩

/-! ### Claim C4: register_new_face success path -/

/-- register_new_face errors atomically: when add_person reports an error,
the database component it returns is the unchanged input. -/
theorem add_person_error_db (db : DB) (now : Int) (name : String)
    (enc : List ℚ) (meta : Option Meta) (err : DBErr)
    (h : (add_person db now name enc meta).1 = Except.error err) :
    (add_person db now name enc meta).2 = db := by
  unfold add_person at h ⊢
  by_cases hc : (db.persons.any fun p => p.name == name) = true
  · rw [if_pos hc]
  · rw [if_neg hc] at h
    exact absurd h (by simp)

/-- C4: registerNewFace returns false and writes nothing when no face is
found; with at least one face it selects the strictly largest bounding box
(width × height in the working resolution), computes its embedding,
persists it through addPerson, and appends embedding, name and new id to
the three projection lists without a reload. -/
theorem C4_register_new_face (m : Matcher) (db : DB) (now : Int)
    (locs : List Loc) (encodeFace : Loc → Option Embedding) (name : String)
    (meta : Option Meta) :
    (locs = [] →
      register_new_face m db now locs encodeFace name meta = (false, m, db)) ∧
    (∀ i, i < locs.length →
      (∀ j, j < locs.length → j ≠ i →
        faceSize (locs.getD j default) < faceSize (locs.getD i default)) →
      ∀ enc pid db',
        encodeFace (locs.getD i default) = some enc →
        add_person db now name enc meta = (Except.ok pid, db') →
        register_new_face m db now locs encodeFace name meta =
          (true,
           { known_face_encodings := m.known_face_encodings ++ [enc]
             known_face_names := m.known_face_names ++ [name]
             known_face_ids := m.known_face_ids ++ [pid] }, db')) := by
  constructor
  · rintro rfl
    rfl
  · intro i hi hmax enc pid db' henc hadd
    have hne : locs ≠ [] :=
      List.ne_nil_of_length_pos (lt_of_le_of_lt (Nat.zero_le i) hi)
    have hmapne : locs.map faceSize ≠ [] :=
      fun hnil => hne (List.map_eq_nil_iff.mp hnil)
    have hlen : (locs.map faceSize).length = locs.length := List.length_map _ _
    have hi' : i < (locs.map faceSize).length := by
      rw [hlen]
      exact hi
    have hargmax : argmaxIdx (locs.map faceSize) = i := by
      apply argmaxIdx_eq_of_strict _ hmapne (faceSize default) i hi'
      intro j hj hji
      rw [getD_map locs faceSize j (by rw [← hlen]; exact hj) _ default,
        getD_map locs faceSize i hi _ default]
      exact hmax j (by rw [← hlen]; exact hj) hji
    unfold register_new_face
    rw [if_neg (by simp [hne]), hargmax]
    split
    · next heq =>
      rw [henc] at heq
      exact absurd heq (by simp)
    · next enc2 heq =>
      rw [henc] at heq
      injection heq with h0
      subst h0
      split
      · next e db2 heq2 =>
        rw [hadd] at heq2
        exact absurd heq2 (by simp)
      · next pid2 db2 heq2 =>
        rw [hadd] at heq2
        injection heq2 with ha hb
        injection ha with hc
        subst hc
        subst hb
        rfl

/-- Witness for C4: registering the larger of two faces into an empty
database. -/
theorem C4_witness :
    register_new_face
      { known_face_encodings := [], known_face_names := [], known_face_ids := [] }
      { persons := [], logs := [], nextPersonId := 1, nextLogId := 1 } 0
      [{ top := 0, right := 1, bottom := 1, left := 0 },
       { top := 0, right := 3, bottom := 3, left := 0 }]
      (fun _ => some [2]) "Alice" none =
      (true,
       { known_face_encodings := [[2]]
         known_face_names := ["Alice"]
         known_face_ids := [1] },
       { persons :=
           [{ id := 1, name := "Alice", face_encoding := [((2 : Int), (1 : Nat))],
              registration_date := 0, last_seen := none, total_detections := 0,
              metadata := [] }],
         logs := [], nextPersonId := 2, nextLogId := 1 }) :=
  (C4_register_new_face
      { known_face_encodings := [], known_face_names := [], known_face_ids := [] }
      { persons := [], logs := [], nextPersonId := 1, nextLogId := 1 } 0
      [{ top := 0, right := 1, bottom := 1, left := 0 },
       { top := 0, right := 3, bottom := 3, left := 0 }]
      (fun _ => some [2]) "Alice" none).2
    1 (by decide) (by decide) [2] 1
    { persons :=
        [{ id := 1, name := "Alice", face_encoding := [((2 : Int), (1 : Nat))],
           registration_date := 0, last_seen := none, total_detections := 0,
           metadata := [] }],
      logs := [], nextPersonId := 2, nextLogId := 1 }
    rfl rfl

/-! ### Claim C10: register_new_face failure path -/

/-- C10: when at least one face is found but the embedding extraction or
the Registry insert fails (for example with a duplicate name), the call
returns false and leaves the projection lists and the database exactly as
they were: no partial append occurs. -/
theorem C10_register_failure (m : Matcher) (db : DB) (now : Int)
    (locs : List Loc) (encodeFace : Loc → Option Embedding) (name : String)
    (meta : Option Meta) (hne : locs ≠ []) :
    (encodeFace (locs.getD (argmaxIdx (locs.map faceSize)) default) = none →
      register_new_face m db now locs encodeFace name meta = (false, m, db)) ∧
    (∀ enc err,
      encodeFace (locs.getD (argmaxIdx (locs.map faceSize)) default) = some enc →
      (add_person db now name enc meta).1 = Except.error err →
      register_new_face m db now locs encodeFace name meta = (false, m, db)) := by
  constructor
  · intro hnone
    unfold register_new_face
    rw [if_neg (by simp [hne])]
    split
    · rfl
    · next enc2 heq =>
      rw [hnone] at heq
      exact absurd heq (by simp)
  · intro enc err henc herr
    have hdb := add_person_error_db db now name enc meta err herr
    have hpair : add_person db now name enc meta = (Except.error err, db) := by
      have hfst : (add_person db now name enc meta).1 = Except.error err := herr
      have heta : add_person db now name enc meta =
          ((add_person db now name enc meta).1,
           (add_person db now name enc meta).2) := rfl
      rw [heta, hfst, hdb]
    unfold register_new_face
    rw [if_neg (by simp [hne])]
    split
    · rfl
    · next enc2 heq =>
      rw [henc] at heq
      injection heq with h0
      subst h0
      split
      · next e db2 heq2 =>
        rw [hpair] at heq2
        injection heq2 with ha hb
        subst hb
        rfl
      · next pid2 db2 heq2 =>
        rw [hpair] at heq2
        injection heq2 with ha hb
        exact absurd ha (by simp)

/-- Witness for C10: a duplicate name makes registration fail with the
projection and database untouched. -/
theorem C10_witness :
    register_new_face
      { known_face_encodings := [[3]], known_face_names := ["Alice"],
        known_face_ids := [1] }
      { persons :=
          [{ id := 1, name := "Alice", face_encoding := [((3 : Int), (1 : Nat))],
             registration_date := 0, last_seen := none, total_detections := 0,
             metadata := [] }],
        logs := [], nextPersonId := 2, nextLogId := 1 } 5
      [{ top := 0, right := 2, bottom := 2, left := 0 }]
      (fun _ => some [4]) "Alice" none =
      (false,
       { known_face_encodings := [[3]], known_face_names := ["Alice"],
         known_face_ids := [1] },
       { persons :=
           [{ id := 1, name := "Alice", face_encoding := [((3 : Int), (1 : Nat))],
              registration_date := 0, last_seen := none, total_detections := 0,
              metadata := [] }],
         logs := [], nextPersonId := 2, nextLogId := 1 }) :=
  (C10_register_failure
      { known_face_encodings := [[3]], known_face_names := ["Alice"],
        known_face_ids := [1] }
      { persons :=
          [{ id := 1, name := "Alice", face_encoding := [((3 : Int), (1 : Nat))],
             registration_date := 0, last_seen := none, total_detections := 0,
             metadata := [] }],
        logs := [], nextPersonId := 2, nextLogId := 1 } 5
      [{ top := 0, right := 2, bottom := 2, left := 0 }]
      (fun _ => some [4]) "Alice" none (by decide)).2
    [4] (DBErr.duplicateName "Alice") rfl rfl

end HDS
